import Mathlib

/-
Verification of the vibelux utility scripts.

Shallow embedding of the Python sources:
  * src/extract_form_fields.py   (balanced-tag scan, options parsing, field extraction)
  * src/analyze_questionnaire.py (field categorisation and type counting)
  * src/count_lines.py, src/accurate_count.py, src/count_code_lines.py (line counters)

Python strings are modelled as `List Char`; file contents on disk are abstract
(a file is its name, a line count, and a readability flag); the `json.loads`
and `ET.fromstring` library calls are abstracted as explicit function
parameters returning `Option` (`none` = the exception the code catches).
-/

namespace Vibelux

/-! ## Definitions -/

/-! ### Generic string helpers (Python `in`, slicing, counting occurrences) -/

/-- `needle` occurs at index `i` of `hay` (Python `hay[i:i+len(needle)] == needle`). -/
def occursAt (needle hay : List Char) (i : Nat) : Bool :=
  needle.isPrefixOf (hay.drop i)

/-- Python substring test `needle in hay`. -/
def containsSub (needle : List Char) : List Char → Bool
  | [] => needle.isEmpty
  | c :: rest => needle.isPrefixOf (c :: rest) || containsSub needle rest

/-- Number of indices `i` with `a ≤ i < a + n` satisfying `P`. -/
def countIn (P : Nat → Bool) (a : Nat) : Nat → Nat
  | 0 => 0
  | n + 1 => (if P a then 1 else 0) + countIn P (a + 1) n

/-! ### Python string utilities used by extract_form_fields.py -/

/-- Helper for `removeAll`: scan char by char; `skip > 0` means we are still
consuming the tail of a pattern occurrence that was matched `skip` chars ago. -/
def removeAllAux (p : Char) (ps : List Char) : List Char → Nat → List Char
  | [], _ => []
  | c :: rest, skip =>
    match skip with
    | n + 1 => removeAllAux p ps rest n
    | 0 =>
      if (p :: ps).isPrefixOf (c :: rest) then removeAllAux p ps rest ps.length
      else c :: removeAllAux p ps rest 0

/-- Python `str.replace(pat, '')`: remove every occurrence of the non-empty
pattern `p :: ps`, scanning left to right without rescanning removed spans. -/
def removeAll (p : Char) (ps : List Char) (l : List Char) : List Char :=
  removeAllAux p ps l 0

/-- Python `str.isspace()`, the character set `str.strip()` removes: the ASCII
whitespace and separators U+0009-U+000D, U+001C-U+001F, U+0020, plus the
Unicode whitespace U+0085, U+00A0, U+1680, U+2000-U+200A, U+2028, U+2029,
U+202F, U+205F and U+3000 (CPython's `Py_UNICODE_ISSPACE`). -/
def pyWhitespace (c : Char) : Bool :=
  c == '\x09' || c == '\x0a' || c == '\x0b' || c == '\x0c' || c == '\x0d'
  || c == '\x1c' || c == '\x1d' || c == '\x1e' || c == '\x1f' || c == ' '
  || c == '\u0085' || c == '\u00a0' || c == '\u1680'
  || c == '\u2000' || c == '\u2001' || c == '\u2002' || c == '\u2003'
  || c == '\u2004' || c == '\u2005' || c == '\u2006' || c == '\u2007'
  || c == '\u2008' || c == '\u2009' || c == '\u200a'
  || c == '\u2028' || c == '\u2029' || c == '\u202f' || c == '\u205f'
  || c == '\u3000'

/-- Python `str.strip()`. -/
def pyStrip (s : List Char) : List Char :=
  ((s.dropWhile pyWhitespace).reverse.dropWhile pyWhitespace).reverse

/-- `options_str.replace('<![CDATA[', '').replace(']]>', '')` (lines 18 and 34). -/
def stripCData (s : List Char) : List Char :=
  removeAll ']' "]>".data (removeAll '<' "![CDATA[".data s)

/-! ### parse_field_options / parse_field_options_config (lines 11-41)

`json.loads` is abstracted as a parameter `jsonLoads : List Char → Option J`
(`none` = the exception the bare `except:` catches, `some v` = the decoded
value). -/

/-- Result of `parse_field_options`: the Python function returns either `[]`,
the JSON-decoded value, or the unmodified input string. -/
inductive OptionsResult (J : Type) where
  | emptyList : OptionsResult J
  | json (v : J) : OptionsResult J
  | original (s : List Char) : OptionsResult J
deriving DecidableEq

/-- Result of `parse_field_options_config`: either `{}` or the decoded value. -/
inductive ConfigResult (J : Type) where
  | emptyDict : ConfigResult J
  | json (v : J) : ConfigResult J
deriving DecidableEq

/-- Lines 11-26 of extract_form_fields.py.  The argument is the `.text` of the
`options` element: `none` models Python `None`, and `if not options_str` is
true for `None` and for the empty string. -/
def parse_field_options {J : Type} (jsonLoads : List Char → Option J) :
    Option (List Char) → OptionsResult J
  | none => .emptyList
  | some s =>
    if s = [] then .emptyList
    else
      let clean := stripCData s
      if pyStrip clean = [] then .emptyList
      else
        match jsonLoads clean with
        | some v => .json v
        | none => .original s

/-- Lines 28-41 of extract_form_fields.py. -/
def parse_field_options_config {J : Type} (jsonLoads : List Char → Option J) :
    Option (List Char) → ConfigResult J
  | none => .emptyDict
  | some s =>
    if s = [] then .emptyDict
    else
      let clean := stripCData s
      if pyStrip clean = [] then .emptyDict
      else
        match jsonLoads clean with
        | some v => .json v
        | none => .emptyDict

/-! ### analyze_questionnaire.py (lines 11-110)

A field record as read back from the extractor's JSON output.  Text values may
be JSON `null` (the extractor stores `None` when an element's text is empty),
hence `Option (List Char)`.  Only the components the analysed claims touch are
modelled. -/

structure JField where
  name : Option (List Char)
  field_key : Option (List Char)
  type : Option (List Char)
  required : Bool
  field_order : Int
deriving DecidableEq

/-- The projection appended to `analysis['personal_info']` (lines 82-87). -/
structure PersonalEntry where
  name : Option (List Char)
  type : Option (List Char)
  field_key : Option (List Char)
  required : Bool
deriving DecidableEq

/-- Line 80: `personal_keywords = ['name', 'email', 'phone', 'address', 'age', 'birth', 'gender']`. -/
def personal_keywords : List (List Char) :=
  ["name".data, "email".data, "phone".data, "address".data, "age".data,
    "birth".data, "gender".data]

/-- Python `str.lower()`; the keywords are ASCII, where `Char.toLower` agrees. -/
def pyLower (s : List Char) : List Char := s.map Char.toLower

/-- Line 44: `field_name = field['name'].lower() if field['name'] else ''`
(`if field['name']` is false for `None` and for the empty string). -/
def fieldNameLower (f : JField) : List Char :=
  match f.name with
  | none => []
  | some s => if s = [] then [] else pyLower s

/-- Line 81: the test deciding membership in `personal_info`. -/
def personalPred (f : JField) : Bool :=
  personal_keywords.any (fun kw => containsSub kw (fieldNameLower f)) ||
    (match f.type with
      | none => false
      | some t => t == "email".data || t == "phone".data || t == "address".data)

def personalEntry (f : JField) : PersonalEntry :=
  ⟨f.name, f.type, f.field_key, f.required⟩

/-- The `analysis['personal_info']` list built by the loop at lines 43-87
(entries are appended in field order; the other categories built by the same
loop do not interact with this list). -/
def personal_info : List JField → List PersonalEntry
  | [] => []
  | f :: rest =>
    if personalPred f then personalEntry f :: personal_info rest
    else personal_info rest

/-- `collections.Counter`, modelled as an insertion-ordered association list
with unique keys: an existing key is incremented in place, a new key is
appended with count 1. -/
def counter_add : List (Option (List Char) × Nat) → Option (List Char) →
    List (Option (List Char) × Nat)
  | [], k => [(k, 1)]
  | (k', n) :: rest, k =>
    if k' == k then (k', n + 1) :: rest else (k', n) :: counter_add rest k

/-- Lines 39-40: `field_type_counts = Counter(f['type'] for f in fields)`;
`analysis['field_types'] = dict(field_type_counts)`. -/
def field_types (fields : List JField) : List (Option (List Char) × Nat) :=
  (fields.map (fun f => f.type)).foldl counter_add []

/-- Line 23: `'total_fields': len(fields)`. -/
def total_fields (fields : List JField) : Nat := fields.length

/-- The summed count stored for key `k` (with unique keys, the stored count). -/
def keyVal (m : List (Option (List Char) × Nat)) (k : Option (List Char)) : Nat :=
  ((m.filter (fun p => p.1 == k)).map (fun p => p.2)).sum

/-- Two sample fields of type `text`, used to instantiate `field_types_partition`. -/
def sampleFields : List JField :=
  [⟨some "a".data, some "k1".data, some "text".data, false, 1⟩,
   ⟨some "b".data, some "k2".data, some "text".data, true, 2⟩]

/-! ### The line-counting scripts

A directory tree is abstract: a file is its name, its line count, and whether
`open()` succeeds on it (the scripts open with `errors='ignore'`, so decoding
never fails; `readable = false` models an OS-level open/read error).  A mutual
inductive is used so that the walks are structurally recursive. -/

mutual
inductive FSNode where
  | file (name : List Char) (lines : Nat) (readable : Bool)
  | dir (name : List Char) (children : FSForest)
inductive FSForest where
  | nil : FSForest
  | cons : FSNode → FSForest → FSForest
end

def addPair (a b : Nat × Nat) : Nat × Nat := (a.1 + b.1, a.2 + b.2)

def sumPairs : List (Nat × Nat) → Nat × Nat
  | [] => (0, 0)
  | p :: rest => addPair p (sumPairs rest)

/-- The common exclusion list of count_lines.py (line 18), accurate_count.py
(line 12), simple_count.py (line 3) and final_count.py (line 6). -/
def exclude_dirs : List (List Char) :=
  ["node_modules".data, ".next".data, "dist".data, "build".data,
    "temp_disabled".data, ".git".data]

/-- count_lines.py line 15: extensions without the dot. -/
def cl_extensions : List (List Char) :=
  ["ts".data, "tsx".data, "js".data, "jsx".data]

/-- The dotted extension list of accurate_count.py line 6 / simple_count.py
line 4 / final_count.py line 5. -/
def ac_extensions : List (List Char) :=
  [".ts".data, ".tsx".data, ".js".data, ".jsx".data]

/-- count_lines.py lines 5-11: `count_lines_in_file` returns the line count,
or 0 when the file cannot be opened or read. -/
def count_lines_in_file (lines : Nat) (readable : Bool) : Nat :=
  if readable then lines else 0

/-- Python `file.split('.')[-1]`: the segment after the last dot (the whole
name when there is no dot). -/
def splitDotLast (name : List Char) : List Char :=
  (name.reverse.takeWhile (fun c => !(c == '.'))).reverse

/-- `os.path.splitext(file)[1]`: the extension starting at the last dot,
except that a basename consisting only of leading dots before that dot has no
extension (CPython `genericpath._splitext`). -/
def splitextExt (name : List Char) : List Char :=
  let afterRev := name.reverse.takeWhile (fun c => !(c == '.'))
  if afterRev.length = name.length then []
  else if (name.take (name.length - afterRev.length - 1)).all
      (fun c => c == '.') then []
  else '.' :: afterRev.reverse

/-- `if any(exc_dir in root for exc_dir in exclude_dirs)`: the `continue`
test applied to each `os.walk` root (count_lines.py line 31 and its copies). -/
def rootSkip (path : List Char) : Bool :=
  exclude_dirs.any (fun e => containsSub e path)

/-- The `os.walk('.')` traversal shared by count_lines.py, accurate_count.py,
simple_count.py and final_count.py: excluded directory names are pruned from
`dirs`, `os.path.join` appends `'/'`, and each script contributes a
`(files, lines)` pair per file of a visited directory.  The per-directory
`continue` test depends only on the root path, so it is carried inside each
script's `contrib`. -/
def walkCount (contrib : List Char → List Char → Nat → Bool → Nat × Nat)
    (path : List Char) : FSForest → Nat × Nat
  | .nil => (0, 0)
  | .cons (.file n l r) rest =>
    addPair (contrib path n l r) (walkCount contrib path rest)
  | .cons (.dir n cs) rest =>
    addPair (if n ∈ exclude_dirs then (0, 0)
             else walkCount contrib (path ++ '/' :: n) cs)
            (walkCount contrib path rest)
termination_by structural l => l

/-- count_lines.py lines 34-43: extension taken as `file.split('.')[-1]`;
a matching file always counts as a file, contributing
`count_lines_in_file` lines (0 when unreadable). -/
def clContrib (path n : List Char) (l : Nat) (r : Bool) : Nat × Nat :=
  if rootSkip path then (0, 0)
  else if splitDotLast n ∈ cl_extensions then (1, count_lines_in_file l r)
  else (0, 0)

/-- count_lines.py `main` (lines 26-43): total files and total lines. -/
def count_lines_main (path : List Char) (f : FSForest) : Nat × Nat :=
  walkCount clContrib path f

/-- accurate_count.py lines 23-35: extension via `os.path.splitext`; a file
that fails to open is skipped entirely (counters only incremented inside the
`try`). -/
def acContrib (path n : List Char) (l : Nat) (r : Bool) : Nat × Nat :=
  if rootSkip path then (0, 0)
  else if splitextExt n ∈ ac_extensions then (if r then (1, l) else (0, 0))
  else (0, 0)

/-- accurate_count.py (module level, lines 15-35): total files and lines. -/
def accurate_count (path : List Char) (f : FSForest) : Nat × Nat :=
  walkCount acContrib path f

/-- simple_count.py lines 17-31: match by `file.endswith(ext)`; a file that
fails to open is skipped entirely. -/
def scContrib (path n : List Char) (l : Nat) (r : Bool) : Nat × Nat :=
  if rootSkip path then (0, 0)
  else if ac_extensions.any (fun ext => ext.isSuffixOf n)
  then (if r then (1, l) else (0, 0))
  else (0, 0)

/-- simple_count.py (module-level walk loop, lines 11-31). -/
def simple_count (path : List Char) (f : FSForest) : Nat × Nat :=
  walkCount scContrib path f

/-- final_count.py lines 30-63: match by `file.endswith(ext)`; counters
incremented after a successful read only. -/
def fcContrib (path n : List Char) (l : Nat) (r : Bool) : Nat × Nat :=
  if rootSkip path then (0, 0)
  else if ac_extensions.any (fun ext => ext.isSuffixOf n)
  then (if r then (1, l) else (0, 0))
  else (0, 0)

/-- final_count.py `count_lines_and_files('.')`: total files and lines. -/
def final_count (path : List Char) (f : FSForest) : Nat × Nat :=
  walkCount fcContrib path f

/-- A file of the tree together with the `os.walk` root path of the directory
that contains it. -/
structure EnumEntry where
  dirPath : List Char
  name : List Char
  lines : Nat
  readable : Bool
deriving DecidableEq

/-- All files of the tree, with their containing directory's walk path (no
pruning: used as the specification side of the walk characterisations). -/
def enumFiles (path : List Char) : FSForest → List EnumEntry
  | .nil => []
  | .cons (.file n l r) rest => ⟨path, n, l, r⟩ :: enumFiles path rest
  | .cons (.dir n cs) rest =>
    enumFiles (path ++ '/' :: n) cs ++ enumFiles path rest
termination_by structural l => l

/-- count_code_lines.py: a path produced by `glob.glob('**/*.<ext>',
recursive=True)` — relative, `'/'`-separated, without a leading `./`. -/
structure GlobEntry where
  path : List Char
  name : List Char
  lines : Nat
  readable : Bool
deriving DecidableEq

/-- A glob pattern component never matches a name starting with a dot. -/
def hiddenName : List Char → Bool
  | [] => false
  | c :: _ => c == '.'

def joinRel : Option (List Char) → List Char → List Char
  | none, n => n
  | some p, n => p ++ '/' :: n

/-- The files `'**/*'` can reach: every path component non-hidden.  Matching
directories are also returned by glob, but `open()` raises on them and the
script skips them, so only files are enumerated. -/
def globFiles (pre : Option (List Char)) : FSForest → List GlobEntry
  | .nil => []
  | .cons (.file n l r) rest =>
    (if hiddenName n then [] else [⟨joinRel pre n, n, l, r⟩]) ++ globFiles pre rest
  | .cons (.dir n cs) rest =>
    (if hiddenName n then [] else globFiles (some (joinRel pre n)) cs)
      ++ globFiles pre rest
termination_by structural l => l

/-- count_code_lines.py lines 5-24: for each pattern `**/*.<ext>`, every
matched file not under a path containing `node_modules` or `.next` is read;
a file whose strict-utf-8 open fails is skipped (the `except` branch). -/
def count_code_lines (f : FSForest) : Nat × Nat :=
  cl_extensions.foldl (fun acc ext =>
    (globFiles none f).foldl (fun acc2 e =>
      if ('.' :: ext).isSuffixOf e.name then
        if containsSub "node_modules".data e.path
            || containsSub ".next".data e.path then acc2
        else if e.readable then (acc2.1 + 1, acc2.2 + e.lines) else acc2
      else acc2) acc) (0, 0)

/-- File-name hypothesis for the counter-equivalence theorem: the name does
not start with a dot and contains a dot. -/
def nameOK (n : List Char) : Bool :=
  (match n with | [] => false | c :: _ => !(c == '.')) && n.contains '.'

/-- Example tree `dist/a.ts` (3 lines): excluded by the walk-based scripts,
counted by count_code_lines.py. -/
def exDist : FSForest :=
  .cons (.dir "dist".data (.cons (.file "a.ts".data 3 true) .nil)) .nil

/-- Example tree `distribution/a.ts` (2 lines): `'dist' in './distribution'`
is true, so count_lines.py skips its files although `distribution` is not in
the exclusion list. -/
def exDistribution : FSForest :=
  .cons (.dir "distribution".data (.cons (.file "a.ts".data 2 true) .nil)) .nil

/-- Example tree with a single readable two-line file `a.ts`. -/
def exSimple : FSForest := .cons (.file "a.ts".data 2 true) .nil

/-! ### extract_form_fields.py: the balanced-tag scan and the pipeline -/

/-- The form-key marker searched for at line 51. -/
def marker : List Char :=
  "<form_key><![CDATA[comprehensivelifestyleandwellnessquestionnaire2]]></form_key>".data

def formOpenTag : List Char := "<form>".data

def formCloseTag : List Char := "</form>".data

/-- Python `content.find(needle)`: index of the first occurrence. -/
def findSub (needle : List Char) : List Char → Option Nat
  | [] => if needle.isEmpty then some 0 else none
  | c :: rest =>
    if needle.isPrefixOf (c :: rest) then some 0
    else (findSub needle rest).map (· + 1)

/-- Scanning helper for `rfindBefore`: try indices `k-1, k-2, …, 0`. -/
def rfindGo (needle content : List Char) (endIdx : Nat) : Nat → Option Nat
  | 0 => none
  | i + 1 =>
    if needle.isPrefixOf (content.drop i) && decide (i + needle.length ≤ endIdx)
    then some i
    else rfindGo needle content endIdx i

/-- Python `content.rfind(needle, 0, endIdx)`: the largest index `i` with an
occurrence wholly inside `content[0:endIdx]`; `none` models the return -1. -/
def rfindBefore (needle content : List Char) (endIdx : Nat) : Option Nat :=
  rfindGo needle content endIdx endIdx

/-- The while loop at lines 60-70, walking the suffix `content.drop pos`:
`<form>` increments the level, `</form>` decrements it and, on reaching 0,
yields `form_end = pos + 7`; falling off the end leaves `form_end` unset
(`none`). -/
def scanCloseAux : List Char → Nat → Int → Option Nat
  | [], _, _ => none
  | c :: rest, pos, level =>
    if formOpenTag.isPrefixOf (c :: rest) then
      scanCloseAux rest (pos + 1) (level + 1)
    else if formCloseTag.isPrefixOf (c :: rest) then
      if level - 1 = 0 then some (pos + 7)
      else scanCloseAux rest (pos + 1) (level - 1)
    else scanCloseAux rest (pos + 1) level
termination_by structural l => l

def scanClose (content : List Char) (pos : Nat) (level : Int) : Option Nat :=
  scanCloseAux (content.drop pos) pos level

/-- Python slice `content[a:b]` for `0 ≤ a ≤ b`. -/
def pySlice (content : List Char) (a b : Nat) : List Char :=
  (content.take b).drop a

/-- Number of occurrences of `needle` in `s` (Python `s.count(needle)` up to
overlap; `<form>` and `</form>` cannot overlap themselves). -/
def countOcc (needle s : List Char) : Nat :=
  countIn (occursAt needle s) 0 s.length

/-- Lines 57-73: find the last `<form>` before the marker and scan for the
balancing `</form>`.  When `rfind` returns -1 the loop starts at `pos = -1`,
where `content[-1:5]` and `content[-1:6]` are empty for any document long
enough to contain the marker, so the scan effectively starts at 0 and the
final slice `content[-1:form_end]` is `content[len-1:form_end]`.  A `none`
result models the `NameError` raised at line 73 when the loop terminates
without setting `form_end`. -/
def sliceAfterMarker (content : List Char) (fs : Nat) : Option (List Char) :=
  match rfindBefore formOpenTag content fs with
  | some fo => (scanClose content fo 0).map (fun fe => pySlice content fo fe)
  | none =>
    (scanClose content 0 0).map
      (fun fe => pySlice content (content.length - 1) fe)

/-- A `field` element as delivered by the abstracted `ElementTree` parse:
for each tag, `none` = element absent, `some t` = element present with text
`t` (`t = none` models Python `None` for an empty element). -/
structure RawField where
  id : Option (Option (List Char))
  field_key : Option (Option (List Char))
  name : Option (Option (List Char))
  description : Option (Option (List Char))
  type : Option (Option (List Char))
  default_value : Option (Option (List Char))
  field_order : Option (Option (List Char))
  required : Option (Option (List Char))
  options : Option (Option (List Char))
  field_options : Option (Option (List Char))
deriving DecidableEq

/-- The result of `ET.fromstring` on the form slice, reduced to the lookups
the code performs: the six metadata tags and `findall('field')`. -/
structure ParsedForm where
  form_id : Option (Option (List Char))
  form_key : Option (Option (List Char))
  name : Option (Option (List Char))
  description : Option (Option (List Char))
  created_at : Option (Option (List Char))
  status : Option (Option (List Char))
  fields : List RawField
deriving DecidableEq

/-- `root.find(tag).text if root.find(tag) is not None else ''`. -/
def resolveText : Option (Option (List Char)) → Option (List Char)
  | none => some []
  | some t => t

/-- One entry of `form_info['fields']` (lines 97-124). -/
structure FieldData (J : Type) where
  id : Option (List Char)
  field_key : Option (List Char)
  name : Option (List Char)
  description : Option (List Char)
  type : Option (List Char)
  default_value : Option (List Char)
  field_order : Int
  required : Bool
  options : OptionsResult J
  field_config : ConfigResult J
deriving DecidableEq

/-- Line 107: `int(field.find('field_order').text) if field.find('field_order')
is not None else 0`.  `intParse` abstracts Python `int(str)`, with `none` the
`ValueError` raised on a non-integer string; a present element whose text is
Python `None` makes `int(None)` raise `TypeError`.  Neither exception is
caught, so `none` here means extract_form_fields crashes. -/
def buildFieldOrder (intParse : List Char → Option Int) :
    Option (Option (List Char)) → Option Int
  | none => some 0
  | some none => none
  | some (some txt) => intParse txt

/-- Lines 97-124: build one `field_data` dictionary; `none` = the uncaught
`TypeError`/`ValueError` from `int()` at line 107. -/
def buildFieldData {J : Type} (jsonLoads : List Char → Option J)
    (intParse : List Char → Option Int) (r : RawField) : Option (FieldData J) :=
  (buildFieldOrder intParse r.field_order).map (fun k =>
    { id := resolveText r.id
      field_key := resolveText r.field_key
      name := resolveText r.name
      description := resolveText r.description
      type := resolveText r.type
      default_value := resolveText r.default_value
      field_order := k
      required := (match r.required with
        | none => false
        | some t => t == some "1".data)
      options := (match r.options with
        | none => OptionsResult.emptyList
        | some txt => parse_field_options jsonLoads txt)
      field_config := (match r.field_options with
        | none => ConfigResult.emptyDict
        | some txt => parse_field_options_config jsonLoads txt) })

/-- The `form_info` dictionary (lines 83-91 and 124-127). -/
structure FormInfo (J : Type) where
  form_id : Option (List Char)
  form_key : Option (List Char)
  name : Option (List Char)
  description : Option (List Char)
  created_at : Option (List Char)
  status : Option (List Char)
  fields : List (FieldData J)
deriving DecidableEq

instance {J : Type} :
    DecidableRel (fun (a b : FieldData J) => a.field_order ≤ b.field_order) :=
  fun a b => Int.decLe a.field_order b.field_order

/-- The loop at lines 97-124: build every `field_data` in document order;
`none` as soon as one field's `int()` conversion raises. -/
def traverseFields {J : Type} (jsonLoads : List Char → Option J)
    (intParse : List Char → Option Int) :
    List RawField → Option (List (FieldData J))
  | [] => some []
  | r :: rest =>
    match buildFieldData jsonLoads intParse r with
    | none => none
    | some fd =>
      match traverseFields jsonLoads intParse rest with
      | none => none
      | some tl => some (fd :: tl)

/-- Lines 83-127: build `form_info` and sort the fields by `field_order`
(line 127; Python's stable `list.sort(key=...)` is modelled by a stable
insertion sort — the claims only concern the resulting order of keys);
`none` = the uncaught `int()` exception from one of the fields. -/
def buildFormInfo {J : Type} (jsonLoads : List Char → Option J)
    (intParse : List Char → Option Int) (p : ParsedForm) :
    Option (FormInfo J) :=
  (traverseFields jsonLoads intParse p.fields).map (fun fds =>
    { form_id := resolveText p.form_id
      form_key := resolveText p.form_key
      name := resolveText p.name
      description := resolveText p.description
      created_at := resolveText p.created_at
      status := resolveText p.status
      fields := List.insertionSort
        (fun a b => a.field_order ≤ b.field_order) fds })

/-- The observable outcome of `extract_form_fields`: `crash` is an uncaught
exception (the `NameError` at line 73 when `form_end` is never set, or the
`TypeError`/`ValueError` from `int()` at line 107), `retNone` the two
`return None` branches, `retSome` the returned dictionary. -/
inductive ExtractResult (J : Type) where
  | crash : ExtractResult J
  | retNone : ExtractResult J
  | retSome (info : FormInfo J) : ExtractResult J
deriving DecidableEq

/-- extract_form_fields (lines 43-129), with `ET.fromstring` abstracted as
`parse` (`none` = the `ET.ParseError` the code catches and turns into
`return None`) and `int` abstracted as `intParse`. -/
def extractFormFields {J : Type} (jsonLoads : List Char → Option J)
    (intParse : List Char → Option Int)
    (parse : List Char → Option ParsedForm) (content : List Char) :
    ExtractResult J :=
  match findSub marker content with
  | none => .retNone
  | some fs =>
    match sliceAfterMarker content fs with
    | none => .crash
    | some s =>
      match parse s with
      | none => .retNone
      | some p =>
        match buildFormInfo jsonLoads intParse p with
        | none => .crash
        | some info => .retSome info

/-- `"<form>" ++ marker ++ "</form>"`: a minimal well-formed document. -/
def sampleDoc : List Char := "<form>".data ++ marker ++ "</form>".data

/-- A raw field with only a `field_order` element. -/
def sampleRaw (fo : Option (Option (List Char))) : RawField :=
  ⟨none, none, none, none, none, none, fo, none, none, none⟩

/-- A parsed form with two fields, given out of order (order text `"2"` and
a missing element). -/
def sampleParsed : ParsedForm :=
  ⟨none, none, none, none, none, none,
    [sampleRaw (some (some "2".data)), sampleRaw none]⟩

/-- A concrete stand-in for `int(str)` that accepts exactly the text `"2"`. -/
def sampleIntParse : List Char → Option Int :=
  fun s => if s = "2".data then some 2 else none

/-- The form-info dictionary the pipeline builds for `sampleParsed` (the
default of `getD` is never used: `buildFormInfo` succeeds here). -/
def sampleInfo : FormInfo Unit :=
  (buildFormInfo (fun _ => none) sampleIntParse sampleParsed).getD
    ⟨none, none, none, none, none, none, []⟩

/-- A parsed form whose single field has a `field_order` element with
non-integer text: `int('abc')` raises `ValueError` at line 107. -/
def badParsed : ParsedForm :=
  ⟨none, none, none, none, none, none, [sampleRaw (some (some "abc".data))]⟩

/-! ## Theorems -/

/-! ### Generic helper lemmas -/

theorem isPrefixOf_ex : ∀ (a b : List Char), a.isPrefixOf b = true ↔ ∃ t, b = a ++ t
  | [], b => by simp [List.isPrefixOf]
  | _ :: _, [] => by simp [List.isPrefixOf]
  | a :: as, b :: bs => by
    simp only [List.isPrefixOf, Bool.and_eq_true, beq_iff_eq, isPrefixOf_ex as bs,
      List.cons_append, List.cons.injEq]
    constructor
    · rintro ⟨rfl, t, rfl⟩; exact ⟨t, rfl, rfl⟩
    · rintro ⟨t, rfl, rfl⟩; exact ⟨rfl, t, rfl⟩

theorem containsSub_iff (a : List Char) :
    ∀ s, containsSub a s = true ↔ ∃ u v, s = u ++ a ++ v
  | [] => by
    simp only [containsSub, List.isEmpty_iff]
    constructor
    · rintro rfl; exact ⟨[], [], rfl⟩
    · rintro ⟨u, v, h⟩
      rcases List.append_eq_nil.mp h.symm with ⟨h1, h2⟩
      exact (List.append_eq_nil.mp h1).2
  | c :: rest => by
    simp only [containsSub, Bool.or_eq_true, isPrefixOf_ex, containsSub_iff a rest]
    constructor
    · rintro (⟨t, ht⟩ | ⟨u, v, huv⟩)
      · exact ⟨[], t, by simpa using ht⟩
      · exact ⟨c :: u, v, by simp [huv]⟩
    · rintro ⟨u, v, huv⟩
      cases u with
      | nil => exact Or.inl ⟨v, by simpa using huv⟩
      | cons x xs =>
        simp only [List.cons_append, List.cons.injEq] at huv
        exact Or.inr ⟨xs, v, huv.2⟩

theorem containsSub_of_append_right (a s t : List Char) (h : containsSub a s = true) :
    containsSub a (s ++ t) = true := by
  rcases (containsSub_iff a s).mp h with ⟨u, v, rfl⟩
  exact (containsSub_iff a (u ++ a ++ v ++ t)).mpr ⟨u, v ++ t, by simp⟩

theorem containsSub_append_self (p a : List Char) :
    containsSub a (p ++ a) = true :=
  (containsSub_iff a (p ++ a)).mpr ⟨p, [], by simp⟩

theorem countIn_congr {P Q : Nat → Bool} :
    ∀ (n a : Nat), (∀ i, a ≤ i → i < a + n → P i = Q i) →
      countIn P a n = countIn Q a n
  | 0, _, _ => rfl
  | n + 1, a, h => by
    simp only [countIn]
    rw [h a (Nat.le_refl a) (by omega),
      countIn_congr n (a + 1) (fun i h1 h2 => h i (by omega) (by omega))]

theorem countIn_split (P : Nat → Bool) :
    ∀ (m : Nat) (a n : Nat), countIn P a (m + n) = countIn P a m + countIn P (a + m) n
  | 0, a, n => by simp [countIn]
  | m + 1, a, n => by
    have h1 : m + 1 + n = (m + n) + 1 := by omega
    simp only [countIn, h1]
    rw [countIn_split P m (a + 1) n]
    have h2 : a + 1 + m = a + (m + 1) := by omega
    rw [h2]; omega

theorem countIn_false {P : Nat → Bool} :
    ∀ (n a : Nat), (∀ i, a ≤ i → i < a + n → P i = false) → countIn P a n = 0
  | 0, _, _ => rfl
  | n + 1, a, h => by
    simp only [countIn]
    rw [h a (Nat.le_refl a) (by omega),
      countIn_false n (a + 1) (fun i h1 h2 => h i (by omega) (by omega))]
    rfl

theorem countIn_shift (P : Nat → Bool) (c : Nat) :
    ∀ (n a : Nat), countIn (fun j => P (c + j)) a n = countIn P (c + a) n
  | 0, _ => rfl
  | n + 1, a => by
    simp only [countIn]
    rw [countIn_shift P c n (a + 1), show c + (a + 1) = c + a + 1 from by omega]

/-- `a.isPrefixOf (l.take m)` holds iff `a` is already a prefix of `l` and fits in `m`. -/
theorem prefixOf_take : ∀ (m : Nat) (a l : List Char),
    a.isPrefixOf (l.take m) = (a.isPrefixOf l && decide (a.length ≤ m))
  | 0, a, l => by
    cases a with
    | nil => simp [List.isPrefixOf]
    | cons x xs => simp [List.isPrefixOf]
  | m + 1, a, l => by
    cases l with
    | nil =>
      cases a with
      | nil => simp [List.isPrefixOf]
      | cons x xs => simp [List.isPrefixOf]
    | cons y ys =>
      cases a with
      | nil => simp [List.isPrefixOf]
      | cons x xs =>
        simp only [List.take_cons, List.isPrefixOf, prefixOf_take m xs ys]
        cases h : (x == y) <;> simp [h, List.length_cons, Nat.succ_le_succ_iff]

/-! ### Counter lemmas (analyze_questionnaire.py) -/

theorem keyVal_cons (k' k : Option (List Char)) (n : Nat)
    (m : List (Option (List Char) × Nat)) :
    keyVal ((k', n) :: m) k = (if k' = k then n else 0) + keyVal m k := by
  by_cases h : k' = k <;> simp [keyVal, List.filter_cons, beq_iff_eq, h]

theorem keyVal_counter_add (k0 k : Option (List Char)) :
    ∀ m, keyVal (counter_add m k0) k = keyVal m k + (if k0 = k then 1 else 0)
  | [] => by
    by_cases h : k0 = k <;>
      simp [keyVal, counter_add, List.filter_cons, beq_iff_eq, h]
  | (k', n) :: rest => by
    by_cases h1 : k' = k0
    · subst h1
      have hcadd : counter_add ((k', n) :: rest) k' = (k', n + 1) :: rest := by
        simp [counter_add]
      rw [hcadd, keyVal_cons, keyVal_cons]
      by_cases h2 : k' = k <;> simp [h2]
      omega
    · have hcadd : counter_add ((k', n) :: rest) k0
          = (k', n) :: counter_add rest k0 := by
        simp [counter_add, beq_iff_eq, h1]
      rw [hcadd, keyVal_cons, keyVal_cons, keyVal_counter_add k0 k rest]
      omega

theorem sumVals_counter_add (k0 : Option (List Char)) :
    ∀ m, ((counter_add m k0).map (fun p => p.2)).sum
      = (m.map (fun p => p.2)).sum + 1
  | [] => by simp [counter_add]
  | (k', n) :: rest => by
    by_cases h : k' = k0
    · simp [counter_add, beq_iff_eq, h]; omega
    · simp [counter_add, beq_iff_eq, h, sumVals_counter_add k0 rest]; omega

theorem keys_counter_add :
    ∀ (m : List (Option (List Char) × Nat)) (k0 : Option (List Char)),
    ((counter_add m k0).map (fun p => p.1))
      = if k0 ∈ m.map (fun p => p.1) then m.map (fun p => p.1)
        else m.map (fun p => p.1) ++ [k0]
  | [], k0 => by simp [counter_add]
  | (k', n) :: rest, k0 => by
    by_cases h : k' = k0
    · subst h; simp [counter_add]
    · simp only [counter_add, beq_iff_eq, if_neg h, List.map_cons,
        keys_counter_add rest k0, List.mem_cons]
      have hne : ¬ k0 = k' := fun hh => h hh.symm
      by_cases hm : k0 ∈ rest.map (fun p => p.1) <;> simp [hm, hne]

theorem keys_nodup_counter_add (k0 : Option (List Char))
    (m : List (Option (List Char) × Nat))
    (h : (m.map (fun p => p.1)).Nodup) :
    ((counter_add m k0).map (fun p => p.1)).Nodup := by
  rw [keys_counter_add m k0]
  by_cases hm : k0 ∈ m.map (fun p => p.1)
  · simpa [hm] using h
  · simp only [if_neg hm]
    simp only [List.nodup_append, List.nodup_singleton, true_and,
      List.disjoint_singleton]
    exact ⟨h, hm⟩

theorem keyVal_eq_zero (k : Option (List Char)) :
    ∀ m, k ∉ (m.map (fun p : Option (List Char) × Nat => p.1)) → keyVal m k = 0
  | [], _ => by simp [keyVal]
  | (k', n) :: rest, h => by
    simp only [List.map_cons, List.mem_cons, not_or] at h
    rw [keyVal_cons, keyVal_eq_zero k rest h.2, if_neg (fun hh => h.1 (Eq.symm hh))]

theorem mem_nodup_keyVal :
    ∀ (m : List (Option (List Char) × Nat)) (k : Option (List Char)) (n : Nat),
      (m.map (fun p => p.1)).Nodup → (k, n) ∈ m → n = keyVal m k
  | [], _, _, _, h => by cases h
  | (k', n') :: rest, k, n, hnd, hmem => by
    simp only [List.map_cons, List.nodup_cons] at hnd
    rcases List.mem_cons.mp hmem with heq | htl
    · have h1 : k = k' := congrArg Prod.fst heq
      have h2 : n = n' := congrArg Prod.snd heq
      subst h1; subst h2
      rw [keyVal_cons, if_pos rfl, keyVal_eq_zero k rest hnd.1]
      omega
    · have hne : k' ≠ k := by
        intro h
        subst h
        exact hnd.1 (by simpa using List.mem_map_of_mem (fun p => p.1) htl)
      rw [keyVal_cons, if_neg hne]
      have := mem_nodup_keyVal rest k n hnd.2 htl
      omega

theorem keyVal_fold (k : Option (List Char)) :
    ∀ (ks : List (Option (List Char))) (m : List (Option (List Char) × Nat)),
      keyVal (ks.foldl counter_add m) k
        = keyVal m k + (ks.filter (fun t => t == k)).length
  | [], m => by simp
  | t :: ks, m => by
    simp only [List.foldl_cons, List.filter_cons, keyVal_fold k ks]
    rw [keyVal_counter_add t k m]
    by_cases h : t = k
    · simp [beq_iff_eq, h]; omega
    · simp [beq_iff_eq, h]

theorem sumVals_fold :
    ∀ (ks : List (Option (List Char))) (m : List (Option (List Char) × Nat)),
      ((ks.foldl counter_add m).map (fun p => p.2)).sum
        = (m.map (fun p => p.2)).sum + ks.length
  | [], m => by simp
  | t :: ks, m => by
    simp only [List.foldl_cons, sumVals_fold ks, sumVals_counter_add t m,
      List.length_cons]
    omega

theorem filter_map_type_length (k : Option (List Char)) :
    ∀ (fields : List JField),
      ((fields.map (fun f => f.type)).filter (fun t => t == k)).length
        = (fields.filter (fun f => f.type == k)).length
  | [] => rfl
  | f :: rest => by
    by_cases h : f.type == k <;>
      simp [List.filter_cons, h, filter_map_type_length k rest]

theorem keys_nodup_fold :
    ∀ (ks : List (Option (List Char))) (m : List (Option (List Char) × Nat)),
      (m.map (fun p => p.1)).Nodup →
        (((ks.foldl counter_add m)).map (fun p => p.1)).Nodup
  | [], _, h => h
  | t :: ks, m, h =>
    keys_nodup_fold ks (counter_add m t) (keys_nodup_counter_add t m h)

/-- C7: the field-type breakdown partitions the fields: each entry of
`analysis['field_types']` equals the number of fields whose type is that key,
and the values sum to `form_metadata['total_fields']`, the length of the
fields list. -/
theorem field_types_partition (fields : List JField) :
    (∀ k n, (k, n) ∈ field_types fields →
      n = (fields.filter (fun f => f.type == k)).length)
    ∧ ((field_types fields).map (fun p => p.2)).sum = total_fields fields := by
  have hdef : field_types fields
      = (fields.map (fun f => f.type)).foldl counter_add [] := rfl
  constructor
  · intro k n hmem
    have hnd : ((field_types fields).map (fun p => p.1)).Nodup := by
      rw [hdef]
      exact keys_nodup_fold (fields.map (fun f => f.type)) [] (by simp)
    have h1 := mem_nodup_keyVal (field_types fields) k n hnd hmem
    rw [hdef, keyVal_fold k (fields.map (fun f => f.type)) []] at h1
    have h3 : keyVal [] k = 0 := by simp [keyVal]
    rw [h3] at h1
    rw [h1]
    simp only [Nat.zero_add]
    exact filter_map_type_length k fields
  · have h := sumVals_fold (fields.map (fun f => f.type)) []
    rw [hdef]
    simpa [total_fields] using h

/-- Witness for `field_types_partition`: two fields of type `text` give the
entry `(text, 2)`, and the counts sum to the number of fields. -/
theorem field_types_partition_witness :
    2 = (sampleFields.filter (fun f => f.type == some "text".data)).length
    ∧ ((field_types sampleFields).map (fun p => p.2)).sum
        = total_fields sampleFields :=
  ⟨(field_types_partition sampleFields).1 (some "text".data) 2 (by decide),
    (field_types_partition sampleFields).2⟩

/-- C6: a field is placed in the personal_info category iff its lower-cased
name contains one of the keywords name, email, phone, address, age, birth,
gender, or its type is one of email, phone, address; a null name is treated as
the empty name. -/
theorem personal_info_characterisation (fields : List JField) :
    personal_info fields
      = (fields.filter (fun f =>
          personal_keywords.any
            (fun kw => containsSub kw (pyLower (f.name.getD [])))
          || (f.type == some "email".data || f.type == some "phone".data
              || f.type == some "address".data))).map personalEntry := by
  have hpred : ∀ f : JField, personalPred f
      = (personal_keywords.any (fun kw => containsSub kw (pyLower (f.name.getD [])))
        || (f.type == some "email".data || f.type == some "phone".data
            || f.type == some "address".data)) := by
    intro f
    have hname : fieldNameLower f = pyLower (f.name.getD []) := by
      rcases f with ⟨name, _, _, _, _⟩
      cases name with
      | none => simp [fieldNameLower, pyLower, Option.getD]
      | some s =>
        by_cases h : s = [] <;> simp [fieldNameLower, pyLower, Option.getD, h]
    rcases f with ⟨name, key, ty, req, ord⟩
    simp only [personalPred, hname]
    cases ty with
    | none => simp
    | some t => simp [beq_iff_eq]
  induction fields with
  | nil => rfl
  | cons f rest ih =>
    simp only [personal_info, List.filter_cons, ← hpred f]
    by_cases h : personalPred f = true
    · simp [h, ih]
    · simp [h, ih]

/-! ### Walk lemmas for the line-counting scripts -/

theorem sumPairs_append :
    ∀ (a b : List (Nat × Nat)), sumPairs (a ++ b) = addPair (sumPairs a) (sumPairs b)
  | [], b => by simp [sumPairs, addPair]
  | p :: a, b => by
    show sumPairs (p :: (a ++ b)) = addPair (sumPairs (p :: a)) (sumPairs b)
    rw [show sumPairs (p :: (a ++ b)) = addPair p (sumPairs (a ++ b)) from rfl,
      show sumPairs (p :: a) = addPair p (sumPairs a) from rfl,
      sumPairs_append a b]
    simp only [addPair, Prod.mk.injEq]
    exact ⟨by omega, by omega⟩

theorem sumPairs_zero {β : Type} (cf : β → Nat × Nat) :
    ∀ (l : List β), (∀ x ∈ l, cf x = (0, 0)) → sumPairs (l.map cf) = (0, 0)
  | [], _ => rfl
  | x :: l, h => by
    simp only [List.map_cons, sumPairs, h x (List.mem_cons_self x l),
      sumPairs_zero cf l (fun y hy => h y (List.mem_cons_of_mem x hy)), addPair]

theorem enumFiles_dirPath_ext (path : List Char) (f : FSForest) :
    ∀ e ∈ enumFiles path f, ∃ q, e.dirPath = path ++ q := by
  induction path, f using enumFiles.induct with
  | case1 path => intro e he; cases he
  | case2 path n l r rest ih =>
    intro e he
    rcases List.mem_cons.mp he with rfl | hm
    · exact ⟨[], by simp⟩
    · exact ih e hm
  | case3 path n cs rest ih1 ih2 =>
    intro e he
    rcases List.mem_append.mp he with hm | hm
    · rcases ih1 e hm with ⟨q, hq⟩
      exact ⟨'/' :: n ++ q, by simp [hq]⟩
    · exact ih2 e hm

theorem rootSkip_mono (path q : List Char) (h : rootSkip path = true) :
    rootSkip (path ++ q) = true := by
  rcases List.any_eq_true.mp h with ⟨e, he, hc⟩
  exact List.any_eq_true.mpr ⟨e, he, containsSub_of_append_right e path q hc⟩

theorem rootSkip_join (path n : List Char) (h : n ∈ exclude_dirs) :
    rootSkip (path ++ '/' :: n) = true := by
  refine List.any_eq_true.mpr ⟨n, h, ?_⟩
  have : path ++ '/' :: n = (path ++ ['/']) ++ n := by simp
  rw [this]
  exact containsSub_append_self (path ++ ['/']) n

theorem walkCount_spec (contrib : List Char → List Char → Nat → Bool → Nat × Nat)
    (Hprune : ∀ p n l r, rootSkip p = true → contrib p n l r = (0, 0))
    (path : List Char) (f : FSForest) :
    walkCount contrib path f
      = sumPairs ((enumFiles path f).map
          (fun e => contrib e.dirPath e.name e.lines e.readable)) := by
  induction path, f using enumFiles.induct with
  | case1 path => rfl
  | case2 path n l r rest ih =>
    simp only [walkCount, enumFiles, List.map_cons, sumPairs, ih]
  | case3 path n cs rest ih1 ih2 =>
    simp only [walkCount, enumFiles, List.map_append, sumPairs_append, ih2]
    by_cases hex : n ∈ exclude_dirs
    · rw [if_pos hex]
      have hz : sumPairs ((enumFiles (path ++ '/' :: n) cs).map
          (fun e => contrib e.dirPath e.name e.lines e.readable)) = (0, 0) := by
        apply sumPairs_zero
        intro e he
        rcases enumFiles_dirPath_ext (path ++ '/' :: n) cs e he with ⟨q, hq⟩
        apply Hprune
        rw [hq]
        exact rootSkip_mono (path ++ '/' :: n) q (rootSkip_join path n hex)
      rw [hz]
    · rw [if_neg hex, ih1]

theorem walkCount_congr (c1 c2 : List Char → List Char → Nat → Bool → Nat × Nat)
    (path : List Char) (f : FSForest)
    (h : ∀ e ∈ enumFiles path f,
      c1 e.dirPath e.name e.lines e.readable
        = c2 e.dirPath e.name e.lines e.readable) :
    walkCount c1 path f = walkCount c2 path f := by
  induction path, f using enumFiles.induct with
  | case1 path => rfl
  | case2 path n l r rest ih =>
    simp only [walkCount]
    rw [h ⟨path, n, l, r⟩ (List.mem_cons_self _ _),
      ih (fun e he => h e (List.mem_cons_of_mem _ he))]
  | case3 path n cs rest ih1 ih2 =>
    simp only [walkCount]
    rw [ih2 (fun e he => h e (List.mem_append_right _ he))]
    by_cases hex : n ∈ exclude_dirs
    · rw [if_pos hex, if_pos hex]
    · rw [if_neg hex, if_neg hex,
        ih1 (fun e he => h e (List.mem_append_left _ he))]

/-- C4 (amended): in count_lines.py's main, a file contributes exactly
`(1, count_lines_in_file lines readable)` iff the final dot-separated
component of its name is one of ts, tsx, js, jsx and no exclusion-list entry
occurs as a substring of the `os.walk` path of its containing directory
(a condition that subsumes the exact-name pruning and also skips
e.g. `./distribution`); every other file contributes nothing. -/
theorem count_lines_contribution (path : List Char) (f : FSForest) :
    count_lines_main path f
      = sumPairs ((enumFiles path f).map (fun e =>
          if rootSkip e.dirPath = false ∧ splitDotLast e.name ∈ cl_extensions
          then (1, count_lines_in_file e.lines e.readable) else (0, 0))) := by
  have hprune : ∀ p n l r, rootSkip p = true → clContrib p n l r = (0, 0) := by
    intro p n l r h
    simp [clContrib, h]
  have hfun : ∀ e : EnumEntry,
      clContrib e.dirPath e.name e.lines e.readable
        = if rootSkip e.dirPath = false ∧ splitDotLast e.name ∈ cl_extensions
          then (1, count_lines_in_file e.lines e.readable) else (0, 0) := by
    intro e
    by_cases h1 : rootSkip e.dirPath <;>
      by_cases h2 : splitDotLast e.name ∈ cl_extensions <;>
        simp [clContrib, h1, h2]
  rw [count_lines_main, walkCount_spec clContrib hprune path f,
    List.map_congr_left (fun e _ => hfun e)]

/-- C4 counterexample: `distribution/a.ts` satisfies the claim's two
conditions (extension in the list, no directory component in the exclusion
list) yet count_lines.py counts nothing, because `'dist' in './distribution'`
makes the walk skip the directory's files. -/
theorem count_lines_iff_counterexample :
    splitDotLast "a.ts".data ∈ cl_extensions
    ∧ "distribution".data ∉ exclude_dirs
    ∧ count_lines_main ".".data exDistribution = (0, 0) :=
  ⟨by decide, by decide, by decide⟩

/-- C10: count_lines_in_file returns 0 for an unreadable file, and main still
counts such a file when its extension matches, so it raises the file total by
one while adding nothing to the line total. -/
theorem unreadable_file_counted (path n : List Char) (l : Nat) (rest : FSForest)
    (hroot : rootSkip path = false)
    (hext : splitDotLast n ∈ cl_extensions) :
    count_lines_in_file l false = 0
    ∧ count_lines_main path (.cons (.file n l false) rest)
        = ((count_lines_main path rest).1 + 1, (count_lines_main path rest).2) := by
  refine ⟨rfl, ?_⟩
  simp only [count_lines_main, walkCount, clContrib, hroot, Bool.false_eq_true,
    if_false, if_pos hext, count_lines_in_file, addPair, Prod.mk.injEq]
  exact ⟨by omega, by omega⟩

/-- Witness for `unreadable_file_counted`: an unreadable 5-line `b.ts` next
to a readable `a.ts`. -/
theorem unreadable_file_counted_witness :
    count_lines_in_file 5 false = 0
    ∧ count_lines_main ".".data (.cons (.file "b.ts".data 5 false) exSimple)
        = ((count_lines_main ".".data exSimple).1 + 1,
           (count_lines_main ".".data exSimple).2) :=
  unreadable_file_counted ".".data "b.ts".data 5 exSimple (by decide) (by decide)

/-- C3 counterexample: on the tree `dist/a.ts` (3 lines, readable),
count_lines.py reports 0 files / 0 lines while count_code_lines.py reports
1 file / 3 lines — the five scripts do not all report the same totals. -/
theorem counters_disagree_counterexample :
    count_lines_main ".".data exDist = (0, 0)
    ∧ count_code_lines exDist = (1, 3) :=
  ⟨by decide, by decide⟩

/-! ### Extension-matching lemmas and the counter-agreement theorem -/

theorem takeWhile_len_lt :
    ∀ (l : List Char), '.' ∈ l →
      (l.takeWhile (fun c => !(c == '.'))).length < l.length
  | [], h => by cases h
  | x :: xs, h => by
    by_cases hx : x = '.'
    · subst hx
      simp [List.takeWhile_cons]
    · have hm : '.' ∈ xs := by
        rcases List.mem_cons.mp h with heq | hm
        · exact absurd heq.symm hx
        · exact hm
      have hpx : (!(x == '.')) = true := by simp [hx]
      rw [List.takeWhile_cons, if_pos hpx]
      have := takeWhile_len_lt xs hm
      simp only [List.length_cons]
      omega

theorem dropWhile_head_false (p : Char → Bool) :
    ∀ (l : List Char) (d : Char) (tl : List Char),
      l.dropWhile p = d :: tl → p d = false
  | [], d, tl, h => by simp [List.dropWhile] at h
  | x :: xs, d, tl, h => by
    rw [List.dropWhile_cons] at h
    by_cases hx : p x = true
    · rw [if_pos hx] at h
      exact dropWhile_head_false p xs d tl h
    · rw [if_neg hx] at h
      injection h with h1 h2
      subst h1
      exact Bool.not_eq_true (p x) ▸ hx

theorem splitDot_decomp (n : List Char) (hdot : '.' ∈ n) :
    ∃ pre, n = pre ++ '.' :: splitDotLast n ∧ ('.' ∉ splitDotLast n)
      ∧ pre.length + 1 + (splitDotLast n).length = n.length := by
  have hrev : '.' ∈ n.reverse := List.mem_reverse.mpr hdot
  have hlt := takeWhile_len_lt n.reverse hrev
  have hsplit := List.takeWhile_append_dropWhile (fun c => !(c == '.')) n.reverse
  have hlens := congrArg List.length hsplit
  simp only [List.length_append] at hlens
  have hdropLen : 0 < (n.reverse.dropWhile (fun c => !(c == '.'))).length := by
    omega
  obtain ⟨d, tl, hd⟩ : ∃ d tl,
      n.reverse.dropWhile (fun c => !(c == '.')) = d :: tl := by
    cases hcase : n.reverse.dropWhile (fun c => !(c == '.')) with
    | nil => rw [hcase] at hdropLen; simp at hdropLen
    | cons d tl => exact ⟨d, tl, rfl⟩
  have hdDot : d = '.' := by
    have := dropWhile_head_false (fun c => !(c == '.')) n.reverse d tl hd
    simpa using this
  subst hdDot
  have hneq : n.reverse
      = n.reverse.takeWhile (fun c => !(c == '.')) ++ '.' :: tl := by
    rw [← hd]
    exact hsplit.symm
  have hn : n = tl.reverse
      ++ '.' :: (n.reverse.takeWhile (fun c => !(c == '.'))).reverse := by
    have := congrArg List.reverse hneq
    simpa [List.reverse_append] using this
  have hsdl : splitDotLast n
      = (n.reverse.takeWhile (fun c => !(c == '.'))).reverse := rfl
  refine ⟨tl.reverse, ?_, ?_, ?_⟩
  · rw [hsdl]; exact hn
  · rw [hsdl]
    intro hmem
    have hmem2 : '.' ∈ n.reverse.takeWhile (fun c => !(c == '.')) :=
      List.mem_reverse.mp hmem
    have := List.mem_takeWhile_imp hmem2
    simp at this
  · rw [hsdl]
    have := congrArg List.length hn
    simp only [List.length_append, List.length_cons, List.length_reverse] at this
    simp only [List.length_reverse]
    omega

theorem takeWhile_append_stop (p : Char → Bool) :
    ∀ (l1 : List Char) (d : Char) (l2 : List Char),
      (∀ c ∈ l1, p c = true) → p d = false →
        (l1 ++ d :: l2).takeWhile p = l1
  | [], d, l2, _, hd => by simp [List.takeWhile_cons, hd]
  | x :: xs, d, l2, h, hd => by
    have hx := h x (List.mem_cons_self x xs)
    simp only [List.cons_append, List.takeWhile_cons, hx, if_true]
    rw [takeWhile_append_stop p xs d l2 (fun c hc => h c (List.mem_cons_of_mem x hc)) hd]

theorem isSuffixOf_ex (a b : List Char) :
    a.isSuffixOf b = true ↔ ∃ t, b = t ++ a := by
  rw [show a.isSuffixOf b = a.reverse.isPrefixOf b.reverse from rfl, isPrefixOf_ex]
  constructor
  · rintro ⟨t, ht⟩
    refine ⟨t.reverse, ?_⟩
    have := congrArg List.reverse ht
    simpa [List.reverse_append] using this
  · rintro ⟨t, rfl⟩
    exact ⟨t.reverse, by simp [List.reverse_append]⟩

theorem nameOK_parts (n : List Char) (hOK : nameOK n = true) :
    '.' ∈ n ∧ ∃ c r, n = c :: r ∧ (c = '.' → False) := by
  cases n with
  | nil => simp [nameOK] at hOK
  | cons c r =>
    simp only [nameOK, Bool.and_eq_true] at hOK
    refine ⟨List.elem_iff.mp hOK.2, c, r, rfl, ?_⟩
    intro hc
    subst hc
    simp at hOK

theorem splitextExt_eq (n : List Char) (hOK : nameOK n = true) :
    splitextExt n = '.' :: splitDotLast n := by
  obtain ⟨hdot, c, r, hn, hc⟩ := nameOK_parts n hOK
  obtain ⟨pre, hdecomp, hnodot, hlen⟩ := splitDot_decomp n hdot
  have haRlen : (n.reverse.takeWhile (fun ch => !(ch == '.'))).length
      = (splitDotLast n).length := by
    rw [show splitDotLast n = (n.reverse.takeWhile (fun ch => !(ch == '.'))).reverse
      from rfl, List.length_reverse]
  rw [splitextExt]
  simp only [haRlen]
  rw [if_neg (by omega)]
  have hpos : n.length - (splitDotLast n).length - 1 = pre.length := by omega
  rw [hpos]
  have htake : n.take pre.length = pre := by
    conv in n.take pre.length => rw [hdecomp]
    exact List.take_left pre ('.' :: splitDotLast n)
  rw [htake]
  have hPreHead : ∃ y ys, pre = y :: ys ∧ (y = '.' → False) := by
    cases hpre : pre with
    | nil =>
      rw [hpre] at hdecomp
      simp only [List.nil_append] at hdecomp
      rw [hn] at hdecomp
      exact absurd (List.head_eq_of_cons_eq hdecomp.symm) (by
        intro h; exact hc h.symm)
    | cons y ys =>
      refine ⟨y, ys, rfl, ?_⟩
      intro hy
      rw [hpre] at hdecomp
      rw [hn] at hdecomp
      have : c = y := List.head_eq_of_cons_eq hdecomp
      exact hc (this.trans hy)
  obtain ⟨y, ys, hpre, hy⟩ := hPreHead
  rw [if_neg ?hall]
  · rw [show splitDotLast n = (n.reverse.takeWhile (fun ch => !(ch == '.'))).reverse
      from rfl]
  case hall =>
    rw [hpre]
    simp only [List.all_cons, Bool.and_eq_true, beq_iff_eq]
    intro hcontra
    exact hy hcontra.1

theorem dot_ext_mem (x : List Char) :
    ('.' :: x ∈ ac_extensions) ↔ (x ∈ cl_extensions) := by
  have h1 : ".ts".data = '.' :: "ts".data := rfl
  have h2 : ".tsx".data = '.' :: "tsx".data := rfl
  have h3 : ".js".data = '.' :: "js".data := rfl
  have h4 : ".jsx".data = '.' :: "jsx".data := rfl
  simp only [ac_extensions, cl_extensions, h1, h2, h3, h4, List.mem_cons,
    List.not_mem_nil, or_false, List.cons.injEq, true_and]

theorem suffix_iff_last (ext n : List Char) (hn : '.' ∈ n) (hext : '.' ∉ ext) :
    (('.' :: ext).isSuffixOf n = true) ↔ splitDotLast n = ext := by
  constructor
  · intro h
    obtain ⟨t, rfl⟩ := (isSuffixOf_ex ('.' :: ext) n).mp h
    rw [splitDotLast]
    have hrev : (t ++ '.' :: ext).reverse = ext.reverse ++ '.' :: t.reverse := by
      simp [List.reverse_append, List.reverse_cons, List.append_assoc]
    rw [hrev, takeWhile_append_stop _ ext.reverse '.' t.reverse
      (fun c hc => by
        simp only [Bool.not_eq_eq_eq_not, Bool.not_true, beq_eq_false_iff_ne,
          ne_eq]
        intro hcd
        exact hext (hcd ▸ List.mem_reverse.mp hc))
      (by simp), List.reverse_reverse]
  · intro h
    obtain ⟨pre, hdecomp, _, _⟩ := splitDot_decomp n hn
    rw [h] at hdecomp
    exact (isSuffixOf_ex ('.' :: ext) n).mpr ⟨pre, hdecomp⟩

theorem any_suffix_iff (n : List Char) (hn : '.' ∈ n) :
    (ac_extensions.any (fun ext => ext.isSuffixOf n) = true)
      ↔ (splitDotLast n ∈ cl_extensions) := by
  have h1 := suffix_iff_last "ts".data n hn (by decide)
  have h2 := suffix_iff_last "tsx".data n hn (by decide)
  have h3 := suffix_iff_last "js".data n hn (by decide)
  have h4 := suffix_iff_last "jsx".data n hn (by decide)
  have e1 : ".ts".data = '.' :: "ts".data := rfl
  have e2 : ".tsx".data = '.' :: "tsx".data := rfl
  have e3 : ".js".data = '.' :: "js".data := rfl
  have e4 : ".jsx".data = '.' :: "jsx".data := rfl
  simp only [ac_extensions, List.any_cons, List.any_nil, Bool.or_false,
    Bool.or_eq_true, e1, e2, e3, e4, h1, h2, h3, h4, cl_extensions,
    List.mem_cons, List.not_mem_nil, or_false]

theorem clContrib_eq_acContrib (p n : List Char) (l : Nat)
    (hOK : nameOK n = true) :
    clContrib p n l true = acContrib p n l true := by
  unfold clContrib acContrib
  by_cases hr : rootSkip p
  · simp [hr]
  · rw [if_neg hr, if_neg hr, splitextExt_eq n hOK]
    by_cases hm : splitDotLast n ∈ cl_extensions
    · rw [if_pos hm, if_pos ((dot_ext_mem (splitDotLast n)).mpr hm)]
      simp [count_lines_in_file]
    · rw [if_neg hm, if_neg (fun hc => hm ((dot_ext_mem (splitDotLast n)).mp hc))]

theorem acContrib_eq_scContrib (p n : List Char) (l : Nat) (r : Bool)
    (hOK : nameOK n = true) :
    acContrib p n l r = scContrib p n l r := by
  obtain ⟨hdot, -⟩ := nameOK_parts n hOK
  unfold acContrib scContrib
  by_cases hr : rootSkip p
  · simp [hr]
  · rw [if_neg hr, if_neg hr, splitextExt_eq n hOK]
    by_cases hm : splitDotLast n ∈ cl_extensions
    · rw [if_pos ((dot_ext_mem (splitDotLast n)).mpr hm),
        if_pos ((any_suffix_iff n hdot).mpr hm)]
    · rw [if_neg (fun hc => hm ((dot_ext_mem (splitDotLast n)).mp hc)),
        if_neg (fun hc => hm ((any_suffix_iff n hdot).mp hc))]

/-- C3 (amended): the five counting scripts are not interchangeable —
count_code_lines.py excludes only node_modules and .next, so its totals can
differ (see the counterexample) — but the four `os.walk`-based scripts
(count_lines.py, accurate_count.py, simple_count.py, final_count.py) report
the same total file and line counts on any tree whose files are all readable
and whose names contain a dot and do not start with one. -/
theorem counters_agree (path : List Char) (f : FSForest)
    (h : ∀ e ∈ enumFiles path f, e.readable = true ∧ nameOK e.name = true) :
    count_lines_main path f = accurate_count path f
    ∧ accurate_count path f = simple_count path f
    ∧ simple_count path f = final_count path f := by
  refine ⟨?_, ?_, ?_⟩
  · show walkCount clContrib path f = walkCount acContrib path f
    apply walkCount_congr
    intro e he
    obtain ⟨hr, hOK⟩ := h e he
    rw [hr]
    exact clContrib_eq_acContrib e.dirPath e.name e.lines hOK
  · show walkCount acContrib path f = walkCount scContrib path f
    apply walkCount_congr
    intro e he
    exact acContrib_eq_scContrib e.dirPath e.name e.lines e.readable (h e he).2
  · show walkCount scContrib path f = walkCount fcContrib path f
    apply walkCount_congr
    intro e he
    rfl

/-- Witness for `counters_agree`: a tree with the single readable file
`a.ts`, on which all four walk-based scripts report (1 file, 2 lines). -/
theorem counters_agree_witness :
    count_lines_main ".".data exSimple = accurate_count ".".data exSimple
    ∧ accurate_count ".".data exSimple = simple_count ".".data exSimple
    ∧ simple_count ".".data exSimple = final_count ".".data exSimple :=
  counters_agree ".".data exSimple (by decide)

/-! ### Lemmas about the balanced-tag scan -/

theorem tags_exclusive (x : List Char) (h1 : formOpenTag.isPrefixOf x = true)
    (h2 : formCloseTag.isPrefixOf x = true) : False := by
  rcases (isPrefixOf_ex formOpenTag x).mp h1 with ⟨t, rfl⟩
  rcases (isPrefixOf_ex formCloseTag (formOpenTag ++ t)).mp h2 with ⟨u, hu⟩
  have e1 : formOpenTag = '<' :: 'f' :: 'o' :: 'r' :: 'm' :: '>' :: [] := rfl
  have e2 : formCloseTag = '<' :: '/' :: 'f' :: 'o' :: 'r' :: 'm' :: '>' :: [] := rfl
  rw [e1, e2] at hu
  simp only [List.cons_append, List.nil_append, List.cons.injEq] at hu
  exact absurd hu.2.1 (by decide)

theorem close_bound (content : List Char) (p : Nat)
    (h : occursAt formCloseTag content p = true) : p + 7 ≤ content.length := by
  rcases (isPrefixOf_ex formCloseTag (content.drop p)).mp h with ⟨u, hu⟩
  have := congrArg List.length hu
  simp only [List.length_drop, List.length_append] at this
  have h7 : formCloseTag.length = 7 := rfl
  rw [h7] at this
  omega

theorem close_next_not_open (content : List Char) (p : Nat)
    (h : occursAt formCloseTag content p = true) :
    occursAt formOpenTag content (p + 1) = false := by
  rcases (isPrefixOf_ex formCloseTag (content.drop p)).mp h with ⟨u, hu⟩
  cases hO : occursAt formOpenTag content (p + 1) with
  | false => rfl
  | true =>
    exfalso
    rcases (isPrefixOf_ex formOpenTag (content.drop (p + 1))).mp hO with ⟨v, hv⟩
    have hstep : content.drop (p + 1) = "/form>".data ++ u := by
      have hdd : (content.drop p).drop 1 = content.drop (p + 1) :=
        List.drop_drop 1 p content
      rw [← hdd, hu]
      rfl
    rw [hstep] at hv
    have e1 : formOpenTag = '<' :: 'f' :: 'o' :: 'r' :: 'm' :: '>' :: [] := rfl
    have e2 : "/form>".data = '/' :: 'f' :: 'o' :: 'r' :: 'm' :: '>' :: [] := rfl
    rw [e1, e2] at hv
    simp only [List.cons_append, List.nil_append, List.cons.injEq] at hv
    exact absurd hv.1 (by decide)

theorem scanCloseAux_sound (content : List Char) :
    ∀ (suffix : List Char) (pos : Nat) (level : Int) (fe : Nat),
      suffix = content.drop pos →
      scanCloseAux suffix pos level = some fe →
      ∃ p, pos ≤ p ∧ p < content.length ∧ fe = p + 7
        ∧ occursAt formCloseTag content p = true
        ∧ occursAt formOpenTag content p = false
        ∧ level
            + (countIn (occursAt formOpenTag content) pos (p + 1 - pos) : Int)
            - (countIn (occursAt formCloseTag content) pos (p + 1 - pos) : Int)
          = 0 := by
  intro suffix
  induction suffix with
  | nil =>
    intro pos level fe hsuf h
    exact absurd h (by simp [scanCloseAux])
  | cons c rest ih =>
    intro pos level fe hsuf h
    have hlen : pos < content.length := by
      have := congrArg List.length hsuf
      simp only [List.length_cons, List.length_drop] at this
      omega
    have hrest : rest = content.drop (pos + 1) := by
      have hdd : (content.drop pos).drop 1 = content.drop (pos + 1) :=
        List.drop_drop 1 pos content
      rw [← hdd, ← hsuf]
      rfl
    have hOat : occursAt formOpenTag content pos
        = formOpenTag.isPrefixOf (c :: rest) := by
      rw [occursAt, ← hsuf]
    have hCat : occursAt formCloseTag content pos
        = formCloseTag.isPrefixOf (c :: rest) := by
      rw [occursAt, ← hsuf]
    by_cases hO : formOpenTag.isPrefixOf (c :: rest) = true
    · simp only [scanCloseAux] at h
      rw [if_pos hO] at h
      obtain ⟨p, hp1, hp2, hp3, hp4, hp5, hbal⟩ := ih (pos + 1) (level + 1) fe hrest h
      refine ⟨p, by omega, hp2, hp3, hp4, hp5, ?_⟩
      have hCfalse : formCloseTag.isPrefixOf (c :: rest) = false := by
        cases hc : formCloseTag.isPrefixOf (c :: rest) with
        | false => rfl
        | true => exact absurd (tags_exclusive (c :: rest) hO hc) (fun x => x)
      have hm : p + 1 - pos = (p + 1 - (pos + 1)) + 1 := by omega
      rw [hm]
      have hopen : countIn (occursAt formOpenTag content) pos ((p + 1 - (pos + 1)) + 1)
          = 1 + countIn (occursAt formOpenTag content) (pos + 1) (p + 1 - (pos + 1)) := by
        show (if occursAt formOpenTag content pos then 1 else 0) + _ = _
        rw [hOat, hO, if_pos rfl]
      have hclose : countIn (occursAt formCloseTag content) pos ((p + 1 - (pos + 1)) + 1)
          = countIn (occursAt formCloseTag content) (pos + 1) (p + 1 - (pos + 1)) := by
        show (if occursAt formCloseTag content pos then 1 else 0) + _ = _
        rw [hCat, hCfalse]
        simp
      rw [hopen, hclose]
      push_cast
      push_cast at hbal
      omega
    · by_cases hC : formCloseTag.isPrefixOf (c :: rest) = true
      · by_cases hz : level - 1 = 0
        · simp only [scanCloseAux] at h
          rw [if_neg hO, if_pos hC, if_pos hz] at h
          injection h with hfe
          have hOfalse : occursAt formOpenTag content pos = false := by
            rw [hOat]
            exact Bool.not_eq_true _ ▸ hO
          refine ⟨pos, Nat.le_refl pos, hlen, hfe.symm, hCat ▸ hC, hOfalse, ?_⟩
          have hone : pos + 1 - pos = 1 := by omega
          rw [hone]
          have ho : countIn (occursAt formOpenTag content) pos 1 = 0 := by
            show (if occursAt formOpenTag content pos then 1 else 0) + 0 = 0
            rw [hOfalse]
            simp
          have hc : countIn (occursAt formCloseTag content) pos 1 = 1 := by
            show (if occursAt formCloseTag content pos then 1 else 0) + 0 = 1
            rw [hCat, hC, if_pos rfl]
          rw [ho, hc]
          omega
        · simp only [scanCloseAux] at h
          rw [if_neg hO, if_pos hC, if_neg hz] at h
          obtain ⟨p, hp1, hp2, hp3, hp4, hp5, hbal⟩ :=
            ih (pos + 1) (level - 1) fe hrest h
          refine ⟨p, by omega, hp2, hp3, hp4, hp5, ?_⟩
          have hOfalse : occursAt formOpenTag content pos = false := by
            rw [hOat]
            exact Bool.not_eq_true _ ▸ hO
          have hm : p + 1 - pos = (p + 1 - (pos + 1)) + 1 := by omega
          rw [hm]
          have hopen : countIn (occursAt formOpenTag content) pos ((p + 1 - (pos + 1)) + 1)
              = countIn (occursAt formOpenTag content) (pos + 1) (p + 1 - (pos + 1)) := by
            show (if occursAt formOpenTag content pos then 1 else 0) + _ = _
            rw [hOfalse]
            simp
          have hclose : countIn (occursAt formCloseTag content) pos ((p + 1 - (pos + 1)) + 1)
              = 1 + countIn (occursAt formCloseTag content) (pos + 1) (p + 1 - (pos + 1)) := by
            show (if occursAt formCloseTag content pos then 1 else 0) + _ = _
            rw [hCat, hC, if_pos rfl]
          rw [hopen, hclose]
          push_cast
          push_cast at hbal
          omega
      · simp only [scanCloseAux] at h
        rw [if_neg hO, if_neg hC] at h
        obtain ⟨p, hp1, hp2, hp3, hp4, hp5, hbal⟩ := ih (pos + 1) level fe hrest h
        refine ⟨p, by omega, hp2, hp3, hp4, hp5, ?_⟩
        have hOfalse : occursAt formOpenTag content pos = false := by
          rw [hOat]
          exact Bool.not_eq_true _ ▸ hO
        have hCfalse : occursAt formCloseTag content pos = false := by
          rw [hCat]
          exact Bool.not_eq_true _ ▸ hC
        have hm : p + 1 - pos = (p + 1 - (pos + 1)) + 1 := by omega
        rw [hm]
        have hopen : countIn (occursAt formOpenTag content) pos ((p + 1 - (pos + 1)) + 1)
            = countIn (occursAt formOpenTag content) (pos + 1) (p + 1 - (pos + 1)) := by
          show (if occursAt formOpenTag content pos then 1 else 0) + _ = _
          rw [hOfalse]
          simp
        have hclose : countIn (occursAt formCloseTag content) pos ((p + 1 - (pos + 1)) + 1)
            = countIn (occursAt formCloseTag content) (pos + 1) (p + 1 - (pos + 1)) := by
          show (if occursAt formCloseTag content pos then 1 else 0) + _ = _
          rw [hCfalse]
          simp
        rw [hopen, hclose]
        push_cast
        push_cast at hbal
        omega

theorem scanClose_sound (content : List Char) (pos : Nat) (level : Int) (fe : Nat)
    (h : scanClose content pos level = some fe) :
    ∃ p, pos ≤ p ∧ p < content.length ∧ fe = p + 7
      ∧ occursAt formCloseTag content p = true
      ∧ occursAt formOpenTag content p = false
      ∧ level
          + (countIn (occursAt formOpenTag content) pos (p + 1 - pos) : Int)
          - (countIn (occursAt formCloseTag content) pos (p + 1 - pos) : Int)
        = 0 :=
  scanCloseAux_sound content (content.drop pos) pos level fe rfl h

theorem rfindGo_sound (needle content : List Char) (endIdx : Nat) :
    ∀ (k fo : Nat), rfindGo needle content endIdx k = some fo →
      occursAt needle content fo = true ∧ fo + needle.length ≤ endIdx ∧ fo < k
      ∧ ∀ j, fo < j → j < k → j + needle.length ≤ endIdx →
          occursAt needle content j = false
  | 0, fo, h => absurd h (by simp [rfindGo])
  | i + 1, fo, h => by
    by_cases hc : (needle.isPrefixOf (content.drop i)
        && decide (i + needle.length ≤ endIdx)) = true
    · simp only [rfindGo] at h
      rw [if_pos hc] at h
      injection h with h1
      obtain ⟨hpre, hdec⟩ : needle.isPrefixOf (content.drop i) = true
          ∧ i + needle.length ≤ endIdx := by
        simpa using hc
      refine ⟨h1 ▸ hpre, by omega, by omega, ?_⟩
      intro j hj1 hj2 _
      omega
    · simp only [rfindGo] at h
      rw [if_neg hc] at h
      obtain ⟨hh1, hh2, hh3, hh4⟩ := rfindGo_sound needle content endIdx i fo h
      refine ⟨hh1, hh2, by omega, ?_⟩
      intro j hj1 hj2 hj3
      by_cases hji : j = i
      · subst hji
        cases hval : occursAt needle content j with
        | false => rfl
        | true =>
          exfalso
          apply hc
          rw [show needle.isPrefixOf (content.drop j) = true from hval]
          simp [hj3]
      · exact hh4 j hj1 (by omega) hj3

/-- Transfer occurrence counting from a slice `content[fo:fo+m]` to counting
over the corresponding index interval of `content`. -/
theorem countOcc_slice (needle content : List Char) (fo m : Nat)
    (hm : fo + m ≤ content.length) :
    countOcc needle (pySlice content fo (fo + m))
      = countIn (fun i => occursAt needle content i
          && decide (i + needle.length ≤ fo + m)) fo m := by
  have hlen : (pySlice content fo (fo + m)).length = m := by
    rw [pySlice, List.length_drop, List.length_take]
    omega
  rw [countOcc, hlen]
  have hpoint : ∀ j, 0 ≤ j → j < 0 + m →
      occursAt needle (pySlice content fo (fo + m)) j
        = (fun jj => (fun i => occursAt needle content i
            && decide (i + needle.length ≤ fo + m)) (fo + jj)) j := by
    intro j _ hj
    have hdropj : (pySlice content fo (fo + m)).drop j
        = (content.drop (fo + j)).take (fo + m - (fo + j)) := by
      rw [pySlice]
      rw [show ((content.take (fo + m)).drop fo).drop j
          = (content.take (fo + m)).drop (fo + j) from List.drop_drop j fo _,
        List.drop_take]
    show needle.isPrefixOf ((pySlice content fo (fo + m)).drop j)
        = (occursAt needle content (fo + j)
            && decide (fo + j + needle.length ≤ fo + m))
    rw [hdropj, prefixOf_take]
    have hdec : decide (needle.length ≤ fo + m - (fo + j))
        = decide (fo + j + needle.length ≤ fo + m) := by
      rw [decide_eq_decide]
      omega
    rw [hdec]
    rfl
  rw [countIn_congr m 0 hpoint, countIn_shift
    (fun i => occursAt needle content i && decide (i + needle.length ≤ fo + m))
    fo m 0, Nat.add_zero]

/-- Restrict a `countIn` interval when the predicate vanishes on the tail. -/
theorem countIn_cut (P Q : Nat → Bool) (a n m : Nat) (hmn : m ≤ n)
    (hagree : ∀ i, a ≤ i → i < a + m → P i = Q i)
    (hzero : ∀ i, a + m ≤ i → i < a + n → P i = false) :
    countIn P a n = countIn Q a m := by
  rw [show n = m + (n - m) from by omega, countIn_split,
    countIn_false (n - m) (a + m) (fun i h1 h2 => hzero i h1 (by omega)),
    countIn_congr m a hagree]
  omega

/-- C1: when the marker is found, a `<form>` precedes it, and the scan finds
its matching close, the extracted slice `content[form_opening:form_end]`
starts with `<form>`, ends with `</form>`, and contains equally many `<form>`
and `</form>` substrings; the scan start is the last occurrence of `<form>`
lying wholly before the marker. -/
theorem extract_slice_balanced (content : List Char) (fs fo fe : Nat)
    (h1 : findSub marker content = some fs)
    (h2 : rfindBefore formOpenTag content fs = some fo)
    (h3 : scanClose content fo 0 = some fe) :
    sliceAfterMarker content fs = some (pySlice content fo fe)
    ∧ (∃ mid, pySlice content fo fe = formOpenTag ++ mid)
    ∧ (∃ pre, pySlice content fo fe = pre ++ formCloseTag)
    ∧ countOcc formOpenTag (pySlice content fo fe)
        = countOcc formCloseTag (pySlice content fo fe)
    ∧ occursAt formOpenTag content fo = true
    ∧ (∀ j, fo < j → j + 6 ≤ fs → occursAt formOpenTag content j = false) := by
  obtain ⟨hOfo, hbound, hfolt, hmax⟩ := rfindGo_sound formOpenTag content fs fs fo h2
  obtain ⟨p, hp1, hp2, hp3, hp4, hp5, hbal⟩ := scanClose_sound content fo 0 fe h3
  subst hp3
  have hlen7 : p + 7 ≤ content.length := close_bound content p hp4
  have hslice : pySlice content fo (p + 7) = (content.drop fo).take (p + 7 - fo) := by
    rw [pySlice, List.drop_take]
  refine ⟨?_, ?_, ?_, ?_, hOfo, ?_⟩
  · simp [sliceAfterMarker, h2, h3]
  · rcases (isPrefixOf_ex formOpenTag (content.drop fo)).mp hOfo with ⟨t, ht⟩
    refine ⟨t.take (p + 7 - fo - 6), ?_⟩
    have hlen6 : formOpenTag.length ≤ p + 7 - fo := by
      rw [show formOpenTag.length = 6 from rfl]
      omega
    rw [hslice, ht, List.take_append_eq_append_take,
      List.take_all_of_le hlen6, show formOpenTag.length = 6 from rfl]
  · rcases (isPrefixOf_ex formCloseTag (content.drop p)).mp hp4 with ⟨u, hu⟩
    refine ⟨(content.drop fo).take (p - fo), ?_⟩
    have hsum : p + 7 - fo = (p - fo) + 7 := by omega
    rw [hslice, hsum, List.take_add]
    congr 1
    have hdd : (content.drop fo).drop (p - fo) = content.drop p := by
      rw [List.drop_drop]
      congr 1
      omega
    have hlenc : formCloseTag.length ≤ 7 := by
      rw [show formCloseTag.length = 7 from rfl]
    rw [hdd, hu, List.take_append_eq_append_take, List.take_all_of_le hlenc,
      show formCloseTag.length = 7 from rfl]
    simp
  · have hfo7 : fo + (p + 7 - fo) = p + 7 := by omega
    have hopen := countOcc_slice formOpenTag content fo (p + 7 - fo) (by omega)
    have hclose := countOcc_slice formCloseTag content fo (p + 7 - fo) (by omega)
    rw [hfo7] at hopen hclose
    rw [hopen, hclose]
    have hOcut : countIn (fun i => occursAt formOpenTag content i
        && decide (i + formOpenTag.length ≤ p + 7)) fo (p + 7 - fo)
        = countIn (occursAt formOpenTag content) fo (p + 1 - fo) := by
      apply countIn_cut _ _ fo (p + 7 - fo) (p + 1 - fo) (by omega)
      · intro i hi1 hi2
        have hle : i + formOpenTag.length ≤ p + 7 := by
          rw [show formOpenTag.length = 6 from rfl]
          omega
        simp [hle]
      · intro i hi1 hi2
        by_cases hip : i = p + 1
        · subst hip
          rw [close_next_not_open content p hp4]
          simp
        · have hle : ¬ (i + formOpenTag.length ≤ p + 7) := by
            rw [show formOpenTag.length = 6 from rfl]
            omega
          simp [hle]
    have hCcut : countIn (fun i => occursAt formCloseTag content i
        && decide (i + formCloseTag.length ≤ p + 7)) fo (p + 7 - fo)
        = countIn (occursAt formCloseTag content) fo (p + 1 - fo) := by
      apply countIn_cut _ _ fo (p + 7 - fo) (p + 1 - fo) (by omega)
      · intro i hi1 hi2
        have hle : i + formCloseTag.length ≤ p + 7 := by
          rw [show formCloseTag.length = 7 from rfl]
          omega
        simp [hle]
      · intro i hi1 hi2
        have hle : ¬ (i + formCloseTag.length ≤ p + 7) := by
          rw [show formCloseTag.length = 7 from rfl]
          omega
        simp [hle]
    rw [hOcut, hCcut]
    omega
  · intro j hj1 hj2
    apply hmax j hj1 (by omega)
    rw [show formOpenTag.length = 6 from rfl]
    exact hj2

/-- Witness for `extract_slice_balanced` on the document
`"<form>" ++ marker ++ "</form>"`: the marker is at 6, the slice is
`content[0:93]` and all conclusions hold there. -/
theorem extract_slice_balanced_witness :
    (findSub marker sampleDoc = some 6
      ∧ rfindBefore formOpenTag sampleDoc 6 = some 0
      ∧ scanClose sampleDoc 0 0 = some 93)
    ∧ (sliceAfterMarker sampleDoc 6 = some (pySlice sampleDoc 0 93)
      ∧ (∃ mid, pySlice sampleDoc 0 93 = formOpenTag ++ mid)
      ∧ (∃ pre, pySlice sampleDoc 0 93 = pre ++ formCloseTag)
      ∧ countOcc formOpenTag (pySlice sampleDoc 0 93)
          = countOcc formCloseTag (pySlice sampleDoc 0 93)
      ∧ occursAt formOpenTag sampleDoc 0 = true
      ∧ (∀ j, 0 < j → j + 6 ≤ 6 → occursAt formOpenTag sampleDoc j = false)) :=
  ⟨⟨by decide, by decide, by decide⟩,
    extract_slice_balanced sampleDoc 6 0 93 (by decide) (by decide) (by decide)⟩

/-! ### C2: the scan's failure branch is reachable -/

theorem scanCloseAux_none (content : List Char) :
    ∀ (suffix : List Char) (pos : Nat) (level : Int),
      suffix = content.drop pos →
      (∀ p, pos ≤ p → p < content.length →
        occursAt formCloseTag content p = false) →
      scanCloseAux suffix pos level = none := by
  intro suffix
  induction suffix with
  | nil => intro pos level _ _; rfl
  | cons c rest ih =>
    intro pos level hsuf h
    have hlen : pos < content.length := by
      have := congrArg List.length hsuf
      simp only [List.length_cons, List.length_drop] at this
      omega
    have hrest : rest = content.drop (pos + 1) := by
      have hdd : (content.drop pos).drop 1 = content.drop (pos + 1) :=
        List.drop_drop 1 pos content
      rw [← hdd, ← hsuf]
      rfl
    have hC : formCloseTag.isPrefixOf (c :: rest) = false := by
      have h0 := h pos (Nat.le_refl pos) hlen
      rw [show occursAt formCloseTag content pos
          = formCloseTag.isPrefixOf (c :: rest) from by rw [occursAt, ← hsuf]] at h0
      exact h0
    by_cases hO : formOpenTag.isPrefixOf (c :: rest) = true
    · simp only [scanCloseAux]
      rw [if_pos hO]
      exact ih (pos + 1) (level + 1) hrest (fun p hp1 hp2 => h p (by omega) hp2)
    · simp only [scanCloseAux]
      rw [if_neg hO, if_neg (by simp [hC])]
      exact ih (pos + 1) level hrest (fun p hp1 hp2 => h p (by omega) hp2)

/-- C2 (amended): the failure branch is reachable — whenever no `</form>`
occurs at or after the scan start, the while loop runs past the end of the
document without setting `form_end` (the scan returns `none`); the marker's
presence does not guarantee success. -/
theorem scan_failure (content : List Char) (pos : Nat) (level : Int)
    (h : ∀ p, pos ≤ p → p < content.length →
      occursAt formCloseTag content p = false) :
    scanClose content pos level = none :=
  scanCloseAux_none content (content.drop pos) pos level rfl h

/-- Witness for `scan_failure`: a document consisting of the marker alone
contains no `</form>`, so the scan started by `extract_form_fields` fails. -/
theorem scan_failure_witness : scanClose marker 0 0 = none := by
  apply scan_failure
  have hall : ∀ p, p < marker.length → occursAt formCloseTag marker p = false := by
    decide
  exact fun p _ hp => hall p hp

/-- C2 counterexample: for the document consisting of the marker alone the
marker is found, yet no `<form>` precedes it (`rfind` returns -1) and the
while loop exits without setting `form_end` — the slice at line 73 raises
`NameError` (modelled by `sliceAfterMarker = none`). -/
theorem scan_failure_counterexample :
    findSub marker marker = some 0
    ∧ rfindBefore formOpenTag marker 0 = none
    ∧ scanClose marker 0 0 = none
    ∧ sliceAfterMarker marker 0 = none :=
  ⟨by decide, rfl, by decide, by decide⟩

/-! ### C5: the return-value characterisation of extract_form_fields -/

theorem buildFieldData_none_iff {J : Type} (jsonLoads : List Char → Option J)
    (intParse : List Char → Option Int) (r : RawField) :
    buildFieldData (J := J) jsonLoads intParse r = none
      ↔ buildFieldOrder intParse r.field_order = none := by
  cases h : buildFieldOrder intParse r.field_order <;> simp [buildFieldData, h]

theorem traverseFields_none_iff {J : Type} (jsonLoads : List Char → Option J)
    (intParse : List Char → Option Int) :
    ∀ (rs : List RawField),
      traverseFields (J := J) jsonLoads intParse rs = none
        ↔ ∃ r ∈ rs, buildFieldOrder intParse r.field_order = none
  | [] => by simp [traverseFields]
  | r :: rest => by
    have hIH := traverseFields_none_iff (J := J) jsonLoads intParse rest
    cases hb : buildFieldData (J := J) jsonLoads intParse r with
    | none =>
      have hbo : buildFieldOrder intParse r.field_order = none :=
        (buildFieldData_none_iff jsonLoads intParse r).mp hb
      constructor
      · intro _
        exact ⟨r, List.mem_cons_self r rest, hbo⟩
      · intro _
        simp [traverseFields, hb]
    | some fd =>
      have hbo : ¬ buildFieldOrder intParse r.field_order = none := by
        intro hc
        rw [(buildFieldData_none_iff jsonLoads intParse r).mpr hc] at hb
        cases hb
      constructor
      · intro h
        have htl : traverseFields (J := J) jsonLoads intParse rest = none := by
          cases htl2 : traverseFields (J := J) jsonLoads intParse rest with
          | none => rfl
          | some tl =>
            rw [show traverseFields (J := J) jsonLoads intParse (r :: rest)
                = some (fd :: tl) from by simp [traverseFields, hb, htl2]] at h
            cases h
        obtain ⟨r2, hm, hr2⟩ := hIH.mp htl
        exact ⟨r2, List.mem_cons_of_mem r hm, hr2⟩
      · rintro ⟨r2, hm, hr2⟩
        rcases List.mem_cons.mp hm with rfl | hm2
        · exact absurd hr2 hbo
        · have := hIH.mpr ⟨r2, hm2, hr2⟩
          simp [traverseFields, hb, this]

theorem buildFormInfo_none_iff {J : Type} (jsonLoads : List Char → Option J)
    (intParse : List Char → Option Int) (p : ParsedForm) :
    buildFormInfo (J := J) jsonLoads intParse p = none
      ↔ ∃ r ∈ p.fields, buildFieldOrder intParse r.field_order = none := by
  rw [← traverseFields_none_iff (J := J) jsonLoads intParse p.fields]
  cases h : traverseFields (J := J) jsonLoads intParse p.fields with
  | none => simp [buildFormInfo, h]
  | some fds => simp [buildFormInfo, h]

/-- C5 (amended): extract_form_fields returns None exactly when the marker is
absent or ElementTree fails to parse the extracted slice; it returns the
form-info dictionary only when additionally the balanced-tag scan succeeded
and every field's field_order converted by `int()` without error; when the
scan fails (`NameError` at line 73) or some field has a present field_order
element whose text is `None` or non-integer (`TypeError`/`ValueError` at
line 107), the function raises instead of returning. -/
theorem extract_return_characterisation {J : Type}
    (jsonLoads : List Char → Option J) (intParse : List Char → Option Int)
    (parse : List Char → Option ParsedForm) (content : List Char) :
    (findSub marker content = none →
      extractFormFields jsonLoads intParse parse content = ExtractResult.retNone)
    ∧ (∀ fs, findSub marker content = some fs →
        (sliceAfterMarker content fs = none →
          extractFormFields jsonLoads intParse parse content
            = ExtractResult.crash)
        ∧ (∀ s, sliceAfterMarker content fs = some s →
            (parse s = none →
              extractFormFields jsonLoads intParse parse content
                = ExtractResult.retNone)
            ∧ (∀ p, parse s = some p →
                ((∃ r ∈ p.fields,
                    buildFieldOrder intParse r.field_order = none) →
                  extractFormFields jsonLoads intParse parse content
                    = ExtractResult.crash)
                ∧ (∀ info, buildFormInfo jsonLoads intParse p = some info →
                    extractFormFields jsonLoads intParse parse content
                      = ExtractResult.retSome info)))) := by
  refine ⟨?_, ?_⟩
  · intro h
    simp [extractFormFields, h]
  · intro fs hfs
    refine ⟨?_, ?_⟩
    · intro hsl
      simp [extractFormFields, hfs, hsl]
    · intro s hs
      refine ⟨?_, ?_⟩
      · intro hp
        simp [extractFormFields, hfs, hs, hp]
      · intro p hp
        refine ⟨?_, ?_⟩
        · intro hex
          have hb := (buildFormInfo_none_iff (J := J) jsonLoads intParse p).mpr hex
          simp [extractFormFields, hfs, hs, hp, hb]
        · intro info hinfo
          simp [extractFormFields, hfs, hs, hp, hinfo]

/-- Witness for `extract_return_characterisation`, exercising the `int()`
crash branch: parsing the sample document into a form whose only field has
field_order text `"abc"` makes the function raise (`ValueError`). -/
theorem extract_return_characterisation_witness :
    extractFormFields (J := Unit) (fun _ => none) (fun _ => none)
      (fun _ => some badParsed) sampleDoc = ExtractResult.crash :=
  ((((extract_return_characterisation (J := Unit) (fun _ => none) (fun _ => none)
        (fun _ => some badParsed) sampleDoc).2 6 (by decide)).2
      (pySlice sampleDoc 0 93) (by decide)).2 badParsed rfl).1
    ⟨sampleRaw (some (some "abc".data)), by decide, by decide⟩

/-- C5 counterexample: on the marker-alone document the marker is present,
so by the claim the function should return None (parse failure) or the
dictionary — instead it crashes with `NameError` before reaching
ElementTree. -/
theorem extract_crash_counterexample :
    findSub marker marker = some 0
    ∧ extractFormFields (J := Unit) (fun _ => none) (fun _ => none)
        (fun _ => none) marker = ExtractResult.crash :=
  ⟨by decide, by decide⟩

/-! ### C8: the returned fields are sorted by field_order -/

theorem buildFormInfo_fields_sorted {J : Type} (jsonLoads : List Char → Option J)
    (intParse : List Char → Option Int) (p : ParsedForm) (info : FormInfo J)
    (h : buildFormInfo jsonLoads intParse p = some info) :
    List.Pairwise (fun a b : FieldData J => a.field_order ≤ b.field_order)
      info.fields := by
  rcases Option.map_eq_some'.mp h with ⟨fds, _, hinfo⟩
  rw [← hinfo]
  show List.Pairwise _ (List.insertionSort _ fds)
  haveI : IsTotal (FieldData J) (fun a b => a.field_order ≤ b.field_order) :=
    ⟨fun a b => Int.le_total a.field_order b.field_order⟩
  haveI : IsTrans (FieldData J) (fun a b => a.field_order ≤ b.field_order) :=
    ⟨fun a b c hab hbc => le_trans hab hbc⟩
  exact List.sorted_insertionSort _ _

/-- C8: whenever extract_form_fields returns a dictionary, its fields list is
sorted in non-decreasing `field_order`, and a field with a missing
`field_order` element is built (without error) with order 0. -/
theorem extract_fields_sorted {J : Type} (jsonLoads : List Char → Option J)
    (intParse : List Char → Option Int)
    (parse : List Char → Option ParsedForm) (content : List Char)
    (info : FormInfo J)
    (h : extractFormFields jsonLoads intParse parse content
      = ExtractResult.retSome info) :
    List.Pairwise (fun a b : FieldData J => a.field_order ≤ b.field_order)
      info.fields
    ∧ (∀ r : RawField, r.field_order = none →
        ∃ fd, buildFieldData jsonLoads intParse r = some fd
          ∧ fd.field_order = 0) := by
  constructor
  · cases hfs : findSub marker content with
    | none => simp [extractFormFields, hfs] at h
    | some fs =>
      cases hsl : sliceAfterMarker content fs with
      | none => simp [extractFormFields, hfs, hsl] at h
      | some s =>
        cases hp : parse s with
        | none => simp [extractFormFields, hfs, hsl, hp] at h
        | some p =>
          cases hb : buildFormInfo (J := J) jsonLoads intParse p with
          | none => simp [extractFormFields, hfs, hsl, hp, hb] at h
          | some info2 =>
            have h1 : info2 = info := by
              have h2 : extractFormFields jsonLoads intParse parse content
                  = ExtractResult.retSome info2 := by
                simp [extractFormFields, hfs, hsl, hp, hb]
              rw [h2] at h
              injection h
            exact h1 ▸ buildFormInfo_fields_sorted jsonLoads intParse p info2 hb
  · intro r hr
    have hbo : buildFieldOrder intParse r.field_order = some 0 := by
      rw [hr]
      rfl
    simp [buildFieldData, hbo]

/-- Witness for `extract_fields_sorted`: parsing the sample document with a
parse result holding order text `"2"` and a missing element returns fields
sorted `[0, 2]`. -/
theorem extract_fields_sorted_witness :
    List.Pairwise (fun a b : FieldData Unit => a.field_order ≤ b.field_order)
      sampleInfo.fields
    ∧ (∀ r : RawField, r.field_order = none →
        ∃ fd, buildFieldData (J := Unit) (fun _ => none) sampleIntParse r = some fd
          ∧ fd.field_order = 0) :=
  extract_fields_sorted (fun _ => none) sampleIntParse
    (fun _ => some sampleParsed) sampleDoc sampleInfo (by decide)

/-! ### C9 theorem: parse_field_options vs parse_field_options_config -/

/-- C9: parse_field_options returns the empty list when its input is empty/None
or the CDATA-stripped content is only whitespace; returns the JSON-decoded
value when the stripped content parses as JSON; and otherwise returns the
original input string unchanged rather than an empty list, whereas
parse_field_options_config returns the empty dictionary in the corresponding
failure case. -/
theorem options_config_contrast {J : Type} (jsonLoads : List Char → Option J)
    (s : List Char) :
    (parse_field_options jsonLoads none = OptionsResult.emptyList
      ∧ parse_field_options_config jsonLoads none = ConfigResult.emptyDict)
    ∧ ((s = [] ∨ pyStrip (stripCData s) = []) →
        parse_field_options jsonLoads (some s) = OptionsResult.emptyList
          ∧ parse_field_options_config jsonLoads (some s) = ConfigResult.emptyDict)
    ∧ (s ≠ [] → pyStrip (stripCData s) ≠ [] →
        (∀ v, jsonLoads (stripCData s) = some v →
          parse_field_options jsonLoads (some s) = OptionsResult.json v
            ∧ parse_field_options_config jsonLoads (some s) = ConfigResult.json v)
        ∧ (jsonLoads (stripCData s) = none →
          parse_field_options jsonLoads (some s) = OptionsResult.original s
            ∧ parse_field_options_config jsonLoads (some s) = ConfigResult.emptyDict)) := by
  refine ⟨⟨rfl, rfl⟩, ?_, ?_⟩
  · rintro (rfl | h)
    · exact ⟨rfl, rfl⟩
    · by_cases hs : s = []
      · subst hs; exact ⟨rfl, rfl⟩
      · refine ⟨?_, ?_⟩ <;>
          simp [parse_field_options, parse_field_options_config, hs, h]
  · intro h1 h2
    constructor
    · intro v hv
      constructor <;>
        simp [parse_field_options, parse_field_options_config, h1, h2, hv]
    · intro hv
      constructor <;>
        simp [parse_field_options, parse_field_options_config, h1, h2, hv]

/-- Witness for `options_config_contrast` at a concrete input: the string
`"<![CDATA[x]]>"` strips to `"x"`, which the failing decoder rejects, so the
options variant returns the original string and the config variant `{}`. -/
theorem options_config_contrast_witness :
    ("<![CDATA[x]]>".data ≠ [] ∧ pyStrip (stripCData "<![CDATA[x]]>".data) ≠ [])
    ∧ parse_field_options (J := Unit) (fun _ => none) (some "<![CDATA[x]]>".data)
        = OptionsResult.original "<![CDATA[x]]>".data
    ∧ parse_field_options_config (J := Unit) (fun _ => none) (some "<![CDATA[x]]>".data)
        = ConfigResult.emptyDict := by
  refine ⟨⟨by decide, by decide⟩, ?_⟩
  exact ((options_config_contrast (J := Unit) (fun _ => none)
    "<![CDATA[x]]>".data).2.2 (by decide) (by decide)).2 rfl

end Vibelux
